import Mathlib

/-!
# DIO timing-calibration core: shallow embedding and verification

Shallow embedding of the DIO (digital I/O) timing-calibration subsystem of
`pycqed/instrument_drivers/physical_instruments/ZurichInstruments/ZI_HDAWG8.py`:

* `_get_edges` — per-bit rising/falling edge detection between two bus samples;
* `_analyze_dio_data` — decoding of codewords and detection of timing
  violations over a captured trace;
* `_is_dio_strb_symmetric` — the strobe duty-cycle symmetry check;
* `_ensure_symmetric_strobe` — the retry/resync loop around the symmetry
  check (modelled on a list of captures; `Sum.inl` is the still-running
  loop state `(good_shots, bad_shots)`, `Sum.inr` the returned boolean);
* `_find_valid_delays` — the per-channel sweep over delay settings 0..6 with
  its bounded re-capture loop (`dioRetry`) and cyclic sequence validation
  (`validSequence`);
* `_set_dio_delay` — the delay-splitting routine, returning the list of the
  32 per-bit delay-register values it programs;
* `calibrate_dio_protocol` — the orchestrator. Hardware accesses are
  abstracted into a `DioHw` environment (register reads and trace captures);
  a `none` result models an uncaught Python exception
  (`set.intersection(*[])` on an empty channel list, `max()` on an empty
  intersection).

Bus samples are unbounded naturals, as Python integers are. The expression
`changed &&& ~~~value &&& mask` of the source equals
`changed &&& last_value &&& mask` (on a changed bit, the complement of
`value` agrees with `last_value`), which is how the falling-edge word is
written here, keeping everything in ℕ.
-/

/-- Edge detector of the source: given current sample, previous sample and a
mask, the pair of rising-edge bits and falling-edge bits under the mask. -/
def _get_edges (value last_value mask : ℕ) : ℕ × ℕ :=
  let changed := value ^^^ last_value
  (changed &&& value &&& mask, changed &&& last_value &&& mask)

/-- Strobe edge pair per the strobe slope policy: slope 0 treats every
position as both edges, 1 keeps rising only, 2 falling only, any other
value keeps both detected edges. -/
def strbEdges (strb_mask strb_slope last_d d : ℕ) : Bool × Bool :=
  if strb_slope = 0 then (true, true)
  else if strb_slope = 1 then (decide ((_get_edges d last_d strb_mask).1 ≠ 0), false)
  else if strb_slope = 2 then (false, decide ((_get_edges d last_d strb_mask).2 ≠ 0))
  else (decide ((_get_edges d last_d strb_mask).1 ≠ 0),
        decide ((_get_edges d last_d strb_mask).2 ≠ 0))

/-- A sample point occurs when either strobe edge flag holds. -/
def samplePointB (strb_mask strb_slope last_d d : ℕ) : Bool :=
  (strbEdges strb_mask strb_slope last_d d).1 || (strbEdges strb_mask strb_slope last_d d).2

/-- Valid-bit edge flag as the source computes it: edges on the valid mask,
but only when the valid polarity is non-zero. -/
def vldEdgeB (vld_mask vld_polarity last_d d : ℕ) : Bool :=
  if vld_polarity ≠ 0 then
    decide ((_get_edges d last_d vld_mask).1 ≠ 0) ||
    decide ((_get_edges d last_d vld_mask).2 ≠ 0)
  else false

/-- Codeword-bit edge flag as the source computes it: edges on the shifted
codeword mask, but only when the codeword mask is non-zero. -/
def cwEdgeB (cw_mask cw_shift last_d d : ℕ) : Bool :=
  if cw_mask ≠ 0 then
    decide ((_get_edges d last_d (cw_mask <<< cw_shift)).1 ≠ 0) ||
    decide ((_get_edges d last_d (cw_mask <<< cw_shift)).2 ≠ 0)
  else false

/-- Valid-active condition: polarity bit 0 makes a low valid bit active,
polarity bit 1 makes a high valid bit active. -/
def vldActiveB (vld_mask vld_polarity d : ℕ) : Bool :=
  (decide (vld_polarity &&& 1 ≠ 0) && decide (d &&& vld_mask = 0)) ||
  (decide (vld_polarity &&& 2 ≠ 0) && decide (d &&& vld_mask ≠ 0))

/-- One step of `_analyze_dio_data`, processing sample `d` at position `n`
with previous sample `last_d`; returns the (codewords, violations) of the
remaining trace with this position's contributions prepended. -/
def analyzeGo (strb_mask strb_slope vld_mask vld_polarity cw_mask cw_shift : ℕ) :
    ℕ → ℕ → List ℕ → List ℕ × List ℕ
  | _, _, [] => ([], [])
  | n, last_d, d :: rest =>
    let sp := samplePointB strb_mask strb_slope last_d d
    let ve := vldEdgeB vld_mask vld_polarity last_d d
    let de := cwEdgeB cw_mask cw_shift last_d d
    let va := vldActiveB vld_mask vld_polarity d
    let codeword := (d >>> cw_shift) &&& cw_mask
    let r := analyzeGo strb_mask strb_slope vld_mask vld_polarity cw_mask cw_shift
      (n + 1) d rest
    ((if sp && va then codeword :: r.1 else r.1),
     (if sp && ve then n :: r.2 else if sp && de then n :: r.2 else r.2))

/-- The trace analyzer of the source: decoded codewords and timing-violation
positions, processing every sample after the first. -/
def _analyze_dio_data (data : List ℕ)
    (strb_mask strb_slope vld_mask vld_polarity cw_mask cw_shift : ℕ) :
    List ℕ × List ℕ :=
  match data with
  | [] => ([], [])
  | d :: rest =>
    analyzeGo strb_mask strb_slope vld_mask vld_polarity cw_mask cw_shift 1 d rest

/-- Per-bit run scan of `_is_dio_strb_symmetric`. State: the two counting
flags, the two run counters, and the previous strobe level (`none` before
the first sample). Returns `false` as soon as a closed run-length pair
mismatch is found. -/
def strbGo (strobe_mask : ℕ) :
    List ℕ → Bool → Bool → ℕ → ℕ → Option Bool → Bool
  | [], _, _, _, _, _ => true
  | d :: rest, count_high, count_low, strobe_high, strobe_low, last_strobe =>
    let curr : Bool := decide (d &&& strobe_mask ≠ 0)
    if count_high && !curr && decide (0 < strobe_low) && decide (strobe_low ≠ strobe_high) then
      false
    else
      let strobe_high := if count_high && curr then strobe_high + 1 else strobe_high
      if count_low && curr && decide (0 < strobe_high) && decide (strobe_low ≠ strobe_high) then
        false
      else
        let strobe_low := if count_low && !curr then strobe_low + 1 else strobe_low
        match last_strobe with
        | none =>
          strbGo strobe_mask rest count_high count_low strobe_high strobe_low (some curr)
        | some l =>
          if curr && !l then
            strbGo strobe_mask rest true false 0 strobe_low (some curr)
          else if !curr && l then
            strbGo strobe_mask rest false true strobe_high 0 (some curr)
          else
            strbGo strobe_mask rest count_high count_low strobe_high strobe_low (some curr)

/-- The strobe symmetry checker of the source: every listed strobe bit must
pass the per-bit run scan. -/
def _is_dio_strb_symmetric (data : List ℕ) (bits : List ℕ) : Bool :=
  bits.all fun bit => strbGo (1 <<< bit) data false false 0 0 none

/-- The `while not done` loop of `_ensure_symmetric_strobe`, consuming one
captured trace per iteration. A symmetric capture zeroes `bad_shots` and
bumps `good_shots`; an asymmetric one zeroes `good_shots` and bumps
`bad_shots`; the loop finishes when a counter exceeds 5 and then returns
`good_shots > 0 ∧ bad_shots = 0`. When the capture list runs out first,
the still-running counter state is returned on the left. -/
def ensureSymLoop (bits : List ℕ) :
    List (List ℕ) → ℕ → ℕ → (ℕ × ℕ) ⊕ Bool
  | [], good_shots, bad_shots => Sum.inl (good_shots, bad_shots)
  | data :: rest, good_shots, bad_shots =>
    if _is_dio_strb_symmetric data bits then
      let bad_shots := 0
      let good_shots := good_shots + 1
      if good_shots > 5 then Sum.inr (decide (good_shots > 0) && decide (bad_shots = 0))
      else ensureSymLoop bits rest good_shots bad_shots
    else
      let good_shots := 0
      let bad_shots := bad_shots + 1
      if bad_shots > 5 then Sum.inr (decide (good_shots > 0) && decide (bad_shots = 0))
      else ensureSymLoop bits rest good_shots bad_shots

/-- `_ensure_symmetric_strobe` on a list of available captures, starting from
zeroed shot counters. -/
def _ensure_symmetric_strobe (bits : List ℕ) (captures : List (List ℕ)) :
    (ℕ × ℕ) ⊕ Bool :=
  ensureSymLoop bits captures 0 0

/-- Tail of the sequence validation of `_find_valid_delays`: advance the
index cyclically and require each decoded codeword to match. -/
def validSeqGo (expected : List ℕ) : ℕ → List ℕ → Bool
  | _, [] => true
  | index, c :: rest =>
    let index := (index + 1) % expected.length
    if c = expected.getD index 0 then validSeqGo expected index rest else false

/-- Sequence validation of `_find_valid_delays`: the first decoded codeword
must occur in the expected sequence (its first index is taken), and each
later one must equal the cyclically next expected codeword. -/
def validSequence (expected decoded : List ℕ) : Bool :=
  match decoded with
  | [] => true
  | c :: rest =>
    if c ∈ expected then validSeqGo expected (expected.indexOf c) rest else false

/-- The re-capture loop of `_find_valid_delays`: while the codeword mask is
non-zero and no codewords were decoded, break once `timeout_cnt > 5`,
otherwise capture again (attempt `timeout_cnt + 1`) and bump the counter.
`fuel` only mirrors the loop's own bound; `dioRetry` supplies enough.
Returns the final (codewords, violations) and the final counter value,
which counts the additional captures performed. -/
def dioRetryGo (cap : ℕ → List ℕ × List ℕ) (cw_mask : ℕ) :
    ℕ → ℕ → List ℕ × List ℕ → (List ℕ × List ℕ) × ℕ
  | 0, timeout_cnt, res => (res, timeout_cnt)
  | fuel + 1, timeout_cnt, res =>
    if cw_mask ≠ 0 ∧ res.1 = [] then
      if timeout_cnt > 5 then (res, timeout_cnt)
      else dioRetryGo cap cw_mask fuel (timeout_cnt + 1) (cap (timeout_cnt + 1))
    else (res, timeout_cnt)

/-- The initial capture (attempt 0) followed by the bounded re-capture loop. -/
def dioRetry (cap : ℕ → List ℕ × List ℕ) (cw_mask : ℕ) :
    (List ℕ × List ℕ) × ℕ :=
  dioRetryGo cap cw_mask 7 0 (cap 0)

/-- The per-delay body of `_find_valid_delays`: capture (with retries) and
analyze, reject on a persistent codeword miss (non-zero mask), reject on
any timing violation, otherwise validate the decoded sequence. `cap delay
k` is the trace captured on attempt `k` with this delay programmed. -/
def delayValid (cap : ℕ → ℕ → List ℕ)
    (strb_mask strb_slope vld_mask vld_polarity cw_mask cw_shift : ℕ)
    (expected : List ℕ) (delay : ℕ) : Bool :=
  let r := dioRetry
    (fun k => _analyze_dio_data (cap delay k)
      strb_mask strb_slope vld_mask vld_polarity cw_mask cw_shift) cw_mask
  let codewords := r.1.1
  let timing_violations := r.1.2
  if cw_mask ≠ 0 ∧ codewords = [] then false
  else if timing_violations ≠ [] then false
  else validSequence expected codewords

/-- `_find_valid_delays`: sweep delays 0..6, keeping those whose captured
trace decodes cleanly to the expected cyclic sequence. -/
def _find_valid_delays (cap : ℕ → ℕ → List ℕ)
    (strb_mask strb_slope vld_mask vld_polarity cw_mask cw_shift : ℕ)
    (expected : List ℕ) : List ℕ :=
  (List.range 7).filter
    (delayValid cap strb_mask strb_slope vld_mask vld_polarity cw_mask cw_shift expected)

/-- `_set_dio_delay`: clamp only the upper bound (the `delay < 0` branch of
the source prints a warning but assigns nothing), split into strobe-side
and data-side delays around 3, and return the 32 per-bit register values
programmed (strobe bits, then data bits, then zero). -/
def _set_dio_delay (strb_mask data_mask : ℕ) (delay : ℤ) : List ℤ :=
  let delay := if delay > 6 then 6 else delay
  let strb_delay : ℤ := if delay > 3 then delay - 3 else 0
  let data_delay : ℤ := if delay > 3 then 0 else 3 - delay
  (List.range 32).map fun i =>
    if strb_mask &&& (1 <<< i) ≠ 0 then strb_delay
    else if data_mask &&& (1 <<< i) ≠ 0 then data_delay
    else 0

/-- The hardware environment `calibrate_dio_protocol` reads: the per-AWG DIO
register values, the capture oracle (AWG, programmed delay, attempt ↦
trace), and the outcome of the strobe-symmetry phase. -/
structure DioHw where
  vldIndex : ℕ → ℕ
  vldPolarity : ℕ → ℕ
  strbIndex : ℕ → ℕ
  strbSlope : ℕ → ℕ
  cwMask : ℕ → ℕ
  cwShift : ℕ → ℕ
  capture : ℕ → ℕ → ℕ → List ℕ
  symmetric : Bool

/-- `_find_valid_delays` wired to a hardware environment for one AWG. -/
def findValidDelaysHw (hw : DioHw) (awg : ℕ) (expected : List ℕ) : List ℕ :=
  _find_valid_delays (hw.capture awg) (1 <<< hw.strbIndex awg) (hw.strbSlope awg)
    (1 <<< hw.vldIndex awg) (hw.vldPolarity awg) (hw.cwMask awg) (hw.cwShift awg) expected

/-- The delay-register values `calibrate_dio_protocol` programs on one AWG
when applying the chosen delay: strobe mask from the strobe index, data
mask from the shifted codeword mask joined with the valid mask. -/
def appliedRegs (hw : DioHw) (awg : ℕ) (delay : ℕ) : List ℤ :=
  _set_dio_delay (1 <<< hw.strbIndex awg)
    ((hw.cwMask awg <<< hw.cwShift awg) ||| (1 <<< hw.vldIndex awg)) (delay : ℤ)

/-- The per-channel search loop of `calibrate_dio_protocol`: `none` models
the early `return False` on the first channel whose valid-delay set is
empty; otherwise all per-channel sets in order. -/
def collectDelays (hw : DioHw) : List (ℕ × List ℕ) → Option (List (List ℕ))
  | [] => some []
  | (awg, seq) :: rest =>
    let v := findValidDelaysHw hw awg seq
    if v = [] then none
    else match collectDelays hw rest with
      | none => none
      | some vs => some (v :: vs)

/-- `set.intersection(*sets)` of the source: undefined (a raise) on an empty
list of sets, otherwise the fold of pairwise intersection. -/
def intersectAll : List (List ℕ) → Option (List ℕ)
  | [] => none
  | s :: ss => some (ss.foldl (fun a b => a.filter (fun x => decide (x ∈ b))) s)

/-- `calibrate_dio_protocol`: abort with `false` when the strobe phase
failed or some channel has no valid delay; then intersect the sets, take
the maximum, and program it on every channel. A `none` result models the
uncaught exception of the source at an empty set list (`set.intersection`
with no argument) or an empty intersection (`max` of an empty set). -/
def calibrate_dio_protocol (hw : DioHw) (awgs_and_sequences : List (ℕ × List ℕ)) :
    Option (Bool × List (ℕ × List ℤ)) :=
  if hw.symmetric = false then some (false, [])
  else
    match collectDelays hw awgs_and_sequences with
    | none => some (false, [])
    | some sets =>
      match intersectAll sets with
      | none => none
      | some combined =>
        match combined.max? with
        | none => none
        | some m =>
          some (true, awgs_and_sequences.map fun p => (p.1, appliedRegs hw p.1 m))

/-! ## Specification-side definitions

These do not model source code; they transcribe conditions of the
specification so that claims comparing the code against them can be stated. -/

/-- Modelled from the spec: a valid-bit change (any edge), detected
independently of the valid-polarity setting. -/
def vldChangeB (vld_mask last_d d : ℕ) : Bool :=
  decide ((_get_edges d last_d vld_mask).1 ≠ 0) ||
  decide ((_get_edges d last_d vld_mask).2 ≠ 0)

/-- Modelled from the spec: a change (any edge) of the shifted
codeword-mask bits, with no guard on the mask being non-zero. -/
def cwChangeB (cw_mask cw_shift last_d d : ℕ) : Bool :=
  decide ((_get_edges d last_d (cw_mask <<< cw_shift)).1 ≠ 0) ||
  decide ((_get_edges d last_d (cw_mask <<< cw_shift)).2 ≠ 0)

/-- Modelled from the spec: cyclic validation of a decoded codeword list
against the expected sequence — the first decoded codeword occurs in the
expected sequence, its (first) index is established there, and every
subsequent decoded codeword equals the cyclically next expected one. -/
def cyclicValidSpec (expected decoded : List ℕ) : Prop :=
  ∀ c rest, decoded = c :: rest → c ∈ expected ∧
    ∀ k, k < rest.length →
      rest.getD k 0 = expected.getD ((expected.indexOf c + k + 1) % expected.length) 0

/-- Alternating constant blocks: the run decomposition of a boolean trace,
starting with polarity `b`. -/
def altBlocks : Bool → List ℕ → List Bool
  | _, [] => []
  | b, t :: ts => List.replicate t b ++ altBlocks (!b) ts

/-- The chain of run-closing comparisons the symmetry scan performs:
entering each further run, the previously measured counter `q` must be
zero or agree with the currently measured counter `c`. -/
def chainOKB : ℕ → ℕ → List ℕ → Bool
  | _, _, [] => true
  | c, q, t :: rs => (decide (q = 0) || decide (q = c)) && chainOKB (t - 1) c rs

/-- The per-bit run scan on an already-extracted boolean trace; same steps
as `strbGo`, with the strobe level given directly. -/
def strbGoB : List Bool → Bool → Bool → ℕ → ℕ → Option Bool → Bool
  | [], _, _, _, _, _ => true
  | curr :: rest, count_high, count_low, strobe_high, strobe_low, last_strobe =>
    if count_high && !curr && decide (0 < strobe_low) && decide (strobe_low ≠ strobe_high) then
      false
    else
      let strobe_high := if count_high && curr then strobe_high + 1 else strobe_high
      if count_low && curr && decide (0 < strobe_high) && decide (strobe_low ≠ strobe_high) then
        false
      else
        let strobe_low := if count_low && !curr then strobe_low + 1 else strobe_low
        match last_strobe with
        | none =>
          strbGoB rest count_high count_low strobe_high strobe_low (some curr)
        | some l =>
          if curr && !l then
            strbGoB rest true false 0 strobe_low (some curr)
          else if !curr && l then
            strbGoB rest false true strobe_high 0 (some curr)
          else
            strbGoB rest count_high count_low strobe_high strobe_low (some curr)

/-! ## Concrete hardware environments used in scenario and counterexample
theorems

All use strobe bit 0 with slope 0 (every position a sample point), valid
bit 1 with polarity 2 (active high), codeword mask 1 shifted by 2. The
capture `[6,6]` is a clean trace decoding to codeword 1; `[6,2]` drops the
codeword bit at the sampled position and yields a timing violation. -/

/-- Environment realising per-channel valid-delay sets {1,2,3,4} (AWG 0)
and {2,3,4,5} (AWG 1). -/
def hwScenario : DioHw where
  vldIndex := fun _ => 1
  vldPolarity := fun _ => 2
  strbIndex := fun _ => 0
  strbSlope := fun _ => 0
  cwMask := fun _ => 1
  cwShift := fun _ => 2
  capture := fun awg delay _ =>
    if (awg = 0 ∧ delay ∈ ([1, 2, 3, 4] : List ℕ)) ∨
       (awg = 1 ∧ delay ∈ ([2, 3, 4, 5] : List ℕ)) then [6, 6] else [6, 2]
  symmetric := true

/-- Environment realising disjoint valid-delay sets {0} and {1}. -/
def hwDisjoint01 : DioHw where
  vldIndex := fun _ => 1
  vldPolarity := fun _ => 2
  strbIndex := fun _ => 0
  strbSlope := fun _ => 0
  cwMask := fun _ => 1
  cwShift := fun _ => 2
  capture := fun awg delay _ =>
    if (awg = 0 ∧ delay = 0) ∨ (awg = 1 ∧ delay = 1) then [6, 6] else [6, 2]
  symmetric := true

/-- Environment realising disjoint valid-delay sets {1} and {2}. -/
def hwDisjoint12 : DioHw where
  vldIndex := fun _ => 1
  vldPolarity := fun _ => 2
  strbIndex := fun _ => 0
  strbSlope := fun _ => 0
  cwMask := fun _ => 1
  cwShift := fun _ => 2
  capture := fun awg delay _ =>
    if (awg = 0 ∧ delay = 1) ∨ (awg = 1 ∧ delay = 2) then [6, 6] else [6, 2]
  symmetric := true

/-! ## Claim theorems -/

/-- C5, code evaluated at the failing input: `_set_dio_delay` with
`delay = -1` does not clamp to 0 — the data-side bits are programmed with
delay `3 - (-1) = 4`, not the `3` the clamped value 0 would give (shown
here on strobe mask 1, data mask 2, whose bit-1 register value is the
data-side delay). With `delay = 10` the upper clamp to 6 does happen,
giving strobe-side delay 3 and data-side 0, and with `delay = 0` the
data-side delay is 3; no input raises. -/
theorem set_dio_delay_eval :
    (_set_dio_delay 1 2 (-1)).getD 1 0 = 4 ∧
    (_set_dio_delay 1 2 0).getD 1 0 = 3 ∧
    (_set_dio_delay 1 2 10).getD 0 0 = 3 ∧
    (_set_dio_delay 1 2 10).getD 1 0 = 0 := by
  refine ⟨?_, ?_, ?_, ?_⟩ <;> rfl

/-- C2, code evaluated at the failing input: with a symmetric strobe and
two channels whose valid-delay sets are the non-empty `[0]` and `[1]`,
the intersection is empty and `calibrate_dio_protocol` ends in the
modelled exception (`none`, the `max()` of an empty set) instead of
returning a boolean. -/
theorem calibrate_empty_intersection_raises :
    hwDisjoint01.symmetric = true ∧
    findValidDelaysHw hwDisjoint01 0 [1] = [0] ∧
    findValidDelaysHw hwDisjoint01 1 [1] = [1] ∧
    calibrate_dio_protocol hwDisjoint01 [(0, [1]), (1, [1])] = none := by
  refine ⟨rfl, ?_, ?_, ?_⟩ <;> rfl

/-- C1 counterexample: the claim promises `true` whenever the symmetry
check passes and every per-channel valid-delay set is non-empty, but with
the non-empty sets `[1]` and `[2]` the intersection is empty and the run
ends in the modelled exception (`none`), not `some true`; likewise an
empty channel list ends in the modelled exception of
`set.intersection` with no arguments. -/
theorem calibrate_claim_cex :
    hwDisjoint12.symmetric = true ∧
    findValidDelaysHw hwDisjoint12 0 [1] = [1] ∧
    findValidDelaysHw hwDisjoint12 1 [1] = [2] ∧
    calibrate_dio_protocol hwDisjoint12 [(0, [1]), (1, [1])] = none ∧
    calibrate_dio_protocol hwDisjoint12 [] = none := by
  refine ⟨rfl, ?_, ?_, ?_, ?_⟩ <;> rfl

/-- C3 counterexample: on the trace `[0, 1]` with strobe mask 2, slope 0
(every position a sample point), valid mask 1 with polarity 0 and no
codeword bits, the valid bit changes at position 1 at a sample point, yet
the analyzer records no violation — the claimed equivalence (with
valid-bit changes detected independently of the polarity, including
polarity none) fails at this position. -/
theorem analyze_violation_iff_cex :
    ¬ ((1 ∈ (_analyze_dio_data [0, 1] 2 0 1 0 0 0).2) ↔
       (samplePointB 2 0 0 1 = true ∧
        (vldChangeB 1 0 1 = true ∨ cwChangeB 0 0 0 1 = true))) := by
  decide

/-- C4 counterexample: after exactly 5 consecutive symmetric captures the
loop is still running with counters (5, 0) — only a 6th finishes it with
`true`; and the capture block of five symmetric shots followed by one
asymmetric shot maps both the initial counters (0, 0) and the counters
(0, 1) to the still-running state (0, 1), so repeating that block forever
never terminates the loop. -/
theorem ensure_symmetric_claim_cex :
    ensureSymLoop [0] (List.replicate 5 []) 0 0 = Sum.inl (5, 0) ∧
    ensureSymLoop [0] (List.replicate 6 []) 0 0 = Sum.inr true ∧
    ensureSymLoop [0] (List.replicate 5 [] ++ [[0, 1, 1, 0, 1]]) 0 0 = Sum.inl (0, 1) ∧
    ensureSymLoop [0] (List.replicate 5 [] ++ [[0, 1, 1, 0, 1]]) 0 1 = Sum.inl (0, 1) := by
  refine ⟨?_, ?_, ?_, ?_⟩ <;> rfl

/-- C7 counterexample: with every capture decoding zero codewords except
attempt 6, the retry loop performs 6 additional captures — the 6th
additional capture's result `[42]` is what comes back — exceeding the
claimed bound of at most 5 additional attempts. -/
theorem dio_retry_claim_cex :
    (dioRetry (fun k => if k = 6 then ([42], []) else ([], [])) 1).1.1 = [42] ∧
    (dioRetry (fun k => if k = 6 then ([42], []) else ([], [])) 1).2 = 6 := by
  exact ⟨rfl, rfl⟩

/-! ## Helper lemmas and remaining claim theorems -/

theorem validSeqGo_iff (expected : List ℕ) :
    ∀ (rest : List ℕ) (i : ℕ),
      validSeqGo expected i rest = true ↔
        ∀ k, k < rest.length →
          rest.getD k 0 = expected.getD ((i + k + 1) % expected.length) 0 := by
  intro rest
  induction rest with
  | nil => intro i; simp [validSeqGo]
  | cons c rest ih =>
    intro i
    have hmod : ∀ k : ℕ, ((i + 1) % expected.length + k + 1) % expected.length
        = (i + (k + 1) + 1) % expected.length := by
      intro k
      have h1 : (i + 1) % expected.length + k + 1
          = (i + 1) % expected.length + (k + 1) := by omega
      have h2 : i + (k + 1) + 1 = (i + 1) + (k + 1) := by omega
      rw [h1, h2, Nat.mod_add_mod]
    simp only [validSeqGo]
    by_cases hc : c = expected.getD ((i + 1) % expected.length) 0
    · rw [if_pos hc, ih]
      constructor
      · intro h k hk
        cases k with
        | zero => simpa using hc
        | succ k =>
          have hk' : k < rest.length := by simpa using hk
          simpa [hmod k] using h k hk'
      · intro h k hk
        have := h (k + 1) (by simpa using Nat.succ_lt_succ hk)
        simpa [hmod k] using this
    · rw [if_neg hc]
      constructor
      · intro h; exact absurd h (by simp)
      · intro h
        exact absurd (by simpa using h 0 (by simp)) hc

/-- C6: the delay-validation step accepts a decoded codeword list exactly
when its first codeword occurs in the expected sequence and, the index
established at that (first) occurrence, every subsequent codeword equals
the cyclically next expected codeword; and the two scenario instances:
against `[1,2,3]` the decoded list `[2,3,1,2,3]` is accepted while
`[2,3,2]` is rejected. -/
theorem validSequence_iff_spec :
    (∀ expected decoded, validSequence expected decoded = true ↔
      cyclicValidSpec expected decoded) ∧
    validSequence [1, 2, 3] [2, 3, 1, 2, 3] = true ∧
    validSequence [1, 2, 3] [2, 3, 2] = false := by
  refine ⟨?_, rfl, rfl⟩
  intro expected decoded
  cases decoded with
  | nil =>
    simp only [validSequence, cyclicValidSpec]
    constructor
    · intro _ c rest h; cases h
    · intro _; trivial
  | cons c rest =>
    simp only [validSequence, cyclicValidSpec]
    by_cases hm : c ∈ expected
    · rw [if_pos hm, validSeqGo_iff]
      constructor
      · intro h c' rest' heq
        injection heq with h1 h2
        subst h1; subst h2
        exact ⟨hm, h⟩
      · intro h
        exact (h c rest rfl).2
    · rw [if_neg hm]
      constructor
      · intro h; cases h
      · intro h; exact absurd (h c rest rfl).1 hm

theorem ensureSymLoop_append (bits : List ℕ) :
    ∀ (xs ys : List (List ℕ)) (g b : ℕ),
      ensureSymLoop bits (xs ++ ys) g b =
        match ensureSymLoop bits xs g b with
        | Sum.inl s => ensureSymLoop bits ys s.1 s.2
        | Sum.inr r => Sum.inr r := by
  intro xs
  induction xs with
  | nil => intro ys g b; simp [ensureSymLoop]
  | cons d xs ih =>
    intro ys g b
    by_cases h : _is_dio_strb_symmetric d bits = true
    · by_cases hg : g + 1 > 5
      · simp [ensureSymLoop, h, hg]
      · simp [ensureSymLoop, h, hg, ih]
    · by_cases hb : b + 1 > 5
      · simp [ensureSymLoop, h, hb]
      · simp [ensureSymLoop, h, hb, ih]

theorem ensureSymLoop_six_good (bits : List ℕ) :
    ∀ (caps : List (List ℕ)) (good bad : ℕ) (rest : List (List ℕ)),
      (∀ c ∈ caps, _is_dio_strb_symmetric c bits = true) →
      good + caps.length = 6 → caps ≠ [] →
      ensureSymLoop bits (caps ++ rest) good bad = Sum.inr true := by
  intro caps
  induction caps with
  | nil => intro good bad rest _ _ h; exact absurd rfl h
  | cons c caps ih =>
    intro good bad rest hsym hlen _
    have hc := hsym c (List.mem_cons_self c caps)
    cases caps with
    | nil =>
      have h5 : good = 5 := by simpa using hlen
      subst h5
      simp [ensureSymLoop, hc]
    | cons c2 caps2 =>
      have hg : ¬ (good + 1 > 5) := by
        simp only [List.length_cons] at hlen; omega
      simp only [List.cons_append, ensureSymLoop, hc, if_true, hg, if_false]
      exact ih (good + 1) 0 rest (fun x hx => hsym x (List.mem_cons_of_mem c hx))
        (by simp only [List.length_cons] at hlen ⊢; omega) (by simp)

theorem ensureSymLoop_six_bad (bits : List ℕ) :
    ∀ (caps : List (List ℕ)) (good bad : ℕ) (rest : List (List ℕ)),
      (∀ c ∈ caps, _is_dio_strb_symmetric c bits = false) →
      bad + caps.length = 6 → caps ≠ [] →
      ensureSymLoop bits (caps ++ rest) good bad = Sum.inr false := by
  intro caps
  induction caps with
  | nil => intro good bad rest _ _ h; exact absurd rfl h
  | cons c caps ih =>
    intro good bad rest hsym hlen _
    have hc := hsym c (List.mem_cons_self c caps)
    cases caps with
    | nil =>
      have h5 : bad = 5 := by simpa using hlen
      subst h5
      simp [ensureSymLoop, hc]
    | cons c2 caps2 =>
      have hb : ¬ (bad + 1 > 5) := by
        simp only [List.length_cons] at hlen; omega
      simp only [List.cons_append, ensureSymLoop, hc, Bool.false_eq_true, if_false, hb]
      exact ih 0 (bad + 1) rest (fun x hx => hsym x (List.mem_cons_of_mem c hx))
        (by simp only [List.length_cons] at hlen ⊢; omega) (by simp)

/-- C4 amended: the recovery loop returns `true` only after 6 (not 5)
consecutive symmetric captures, `false` only after 6 consecutive
asymmetric captures (the counters are compared with `> 5`), and it need
not terminate at all: any capture block that drives the counters from
`(0,0)` to `(0,1)` and from `(0,1)` back to `(0,1)` without finishing —
concretely, five symmetric captures followed by one asymmetric one —
keeps the loop running forever when repeated. -/
theorem ensure_symmetric_amended :
    (∀ (bits : List ℕ) (caps rest : List (List ℕ)),
      (∀ c ∈ caps, _is_dio_strb_symmetric c bits = true) → caps.length = 6 →
      _ensure_symmetric_strobe bits (caps ++ rest) = Sum.inr true) ∧
    (∀ (bits : List ℕ) (caps rest : List (List ℕ)),
      (∀ c ∈ caps, _is_dio_strb_symmetric c bits = false) → caps.length = 6 →
      _ensure_symmetric_strobe bits (caps ++ rest) = Sum.inr false) ∧
    (∀ (bits : List ℕ) (block : List (List ℕ)),
      ensureSymLoop bits block 0 0 = Sum.inl (0, 1) →
      ensureSymLoop bits block 0 1 = Sum.inl (0, 1) →
      ∀ n, (_ensure_symmetric_strobe bits
        (List.flatten (List.replicate n block))).isLeft = true) ∧
    (∀ n, (_ensure_symmetric_strobe [0] (List.flatten (List.replicate n
        (List.replicate 5 [] ++ [[0, 1, 1, 0, 1]])))).isLeft = true) := by
  have hcycle : ∀ (bits : List ℕ) (block : List (List ℕ)),
      ensureSymLoop bits block 0 0 = Sum.inl (0, 1) →
      ensureSymLoop bits block 0 1 = Sum.inl (0, 1) →
      ∀ n, (_ensure_symmetric_strobe bits
        (List.flatten (List.replicate n block))).isLeft = true := by
    intro bits block h0 h1
    have haux : ∀ n, (ensureSymLoop bits
        (List.flatten (List.replicate n block)) 0 1).isLeft = true := by
      intro n
      induction n with
      | zero => simp [ensureSymLoop]
      | succ n ih =>
        rw [List.replicate_succ, List.flatten_cons, ensureSymLoop_append, h1]
        exact ih
    intro n
    cases n with
    | zero => simp [_ensure_symmetric_strobe, ensureSymLoop]
    | succ n =>
      unfold _ensure_symmetric_strobe
      rw [List.replicate_succ, List.flatten_cons, ensureSymLoop_append, h0]
      exact haux n
  refine ⟨?_, ?_, hcycle, ?_⟩
  · intro bits caps rest hsym hlen
    exact ensureSymLoop_six_good bits caps 0 0 rest hsym (by omega)
      (by intro h; subst h; simp at hlen)
  · intro bits caps rest hsym hlen
    exact ensureSymLoop_six_bad bits caps 0 0 rest hsym (by omega)
      (by intro h; subst h; simp at hlen)
  · exact hcycle [0] (List.replicate 5 [] ++ [[0, 1, 1, 0, 1]]) (by rfl) (by rfl)

/-- Witness for the amended C4 theorem at a concrete input: six symmetric
captures (empty traces) finish the loop with `true`. -/
theorem ensure_symmetric_amended_witness :
    _ensure_symmetric_strobe [0] (List.replicate 6 [] ++ []) = Sum.inr true :=
  ensure_symmetric_amended.1 [0] (List.replicate 6 []) [] (by decide) (by decide)

theorem dioRetryGo_count_le (cap : ℕ → List ℕ × List ℕ) (cw_mask : ℕ) :
    ∀ (fuel cnt : ℕ) (res : List ℕ × List ℕ),
      cnt ≤ 6 → cnt + fuel = 7 →
      (dioRetryGo cap cw_mask fuel cnt res).2 ≤ 6 := by
  intro fuel
  induction fuel with
  | zero => intro cnt res h1 _; simpa [dioRetryGo] using h1
  | succ fuel ih =>
    intro cnt res h1 h2
    by_cases hcond : cw_mask ≠ 0 ∧ res.1 = []
    · by_cases hcnt : cnt > 5
      · simpa [dioRetryGo, hcond, hcnt] using h1
      · simp only [dioRetryGo, if_pos hcond, if_neg hcnt]
        exact ih (cnt + 1) _ (by omega) (by omega)
    · simpa [dioRetryGo, hcond] using h1

theorem dioRetry_count_le (cap : ℕ → List ℕ × List ℕ) (cw_mask : ℕ) :
    (dioRetry cap cw_mask).2 ≤ 6 :=
  dioRetryGo_count_le cap cw_mask 7 0 (cap 0) (by omega) rfl

/-- C7 amended: for a non-zero codeword mask, a zero-codeword capture is
retried at most 6 (not 5) additional times — the loop breaks only once
its counter exceeds 5, and the counter equals the number of additional
captures taken; a delay whose captures still decode to zero codewords
after the retries is excluded from the channel's valid-delay list, and
the sweep is unaffected elsewhere: every delay below 7 whose own
per-delay check passes is in the list regardless. -/
theorem find_valid_delays_retry_amended :
    (∀ (cap : ℕ → List ℕ × List ℕ) (cw_mask : ℕ),
      (dioRetry cap cw_mask).2 ≤ 6) ∧
    (∀ (cap : ℕ → ℕ → List ℕ)
       (strb_mask strb_slope vld_mask vld_polarity cw_mask cw_shift : ℕ)
       (expected : List ℕ) (delay : ℕ),
      cw_mask ≠ 0 →
      (dioRetry (fun k => _analyze_dio_data (cap delay k)
        strb_mask strb_slope vld_mask vld_polarity cw_mask cw_shift) cw_mask).1.1 = [] →
      delay ∉ _find_valid_delays cap strb_mask strb_slope vld_mask vld_polarity
        cw_mask cw_shift expected) ∧
    (∀ (cap : ℕ → ℕ → List ℕ)
       (strb_mask strb_slope vld_mask vld_polarity cw_mask cw_shift : ℕ)
       (expected : List ℕ) (delay : ℕ),
      delay < 7 →
      delayValid cap strb_mask strb_slope vld_mask vld_polarity cw_mask cw_shift
        expected delay = true →
      delay ∈ _find_valid_delays cap strb_mask strb_slope vld_mask vld_polarity
        cw_mask cw_shift expected) := by
  refine ⟨dioRetry_count_le, ?_, ?_⟩
  · intro cap sm ss vm vp cm cs expected delay hm hr hmem
    have hvalid : delayValid cap sm ss vm vp cm cs expected delay = true :=
      List.of_mem_filter hmem
    simp only [delayValid] at hvalid
    rw [if_pos ⟨hm, hr⟩] at hvalid
    cases hvalid
  · intro cap sm ss vm vp cm cs expected delay hlt hvalid
    exact List.mem_filter.mpr ⟨List.mem_range.mpr hlt, hvalid⟩

/-- Witness for the amended C7 theorem at a concrete input: a persistent
zero-codeword capture (empty traces, codeword mask 1) keeps delay 3 out
of the valid-delay list. -/
theorem find_valid_delays_retry_amended_witness :
    3 ∉ _find_valid_delays (fun _ _ => []) 1 0 2 2 1 0 [1] :=
  find_valid_delays_retry_amended.2.1 (fun _ _ => []) 1 0 2 2 1 0 [1] 3
    (by decide) (by decide)

theorem collectDelays_eq_map (hw : DioHw) :
    ∀ (as : List (ℕ × List ℕ)),
      (∀ p ∈ as, findValidDelaysHw hw p.1 p.2 ≠ []) →
      collectDelays hw as = some (as.map fun p => findValidDelaysHw hw p.1 p.2) := by
  intro as
  induction as with
  | nil => intro _; rfl
  | cons p as ih =>
    intro h
    obtain ⟨awg, seq⟩ := p
    have h1 := h (awg, seq) (List.mem_cons_self _ _)
    rw [List.map_cons]
    simp only [collectDelays, if_neg h1,
      ih (fun q hq => h q (List.mem_cons_of_mem _ hq))]

theorem collectDelays_none (hw : DioHw) :
    ∀ (as : List (ℕ × List ℕ)),
      (∃ p ∈ as, findValidDelaysHw hw p.1 p.2 = []) →
      collectDelays hw as = none := by
  intro as
  induction as with
  | nil => rintro ⟨p, hp, _⟩; cases hp
  | cons q as ih =>
    rintro ⟨p, hp, hempty⟩
    obtain ⟨awg, seq⟩ := q
    rcases List.mem_cons.mp hp with rfl | hmem
    · simp [collectDelays, hempty]
    · simp only [collectDelays]
      by_cases hq : findValidDelaysHw hw awg seq = []
      · rw [if_pos hq]
      · rw [if_neg hq, ih ⟨p, hmem, hempty⟩]

/-- C1 amended: the claimed behaviour holds except that a successful run
additionally needs at least one channel and a non-empty intersection of
the per-channel valid-delay sets — otherwise the code ends in the
modelled exception (`none`) rather than returning. In detail: a failed
symmetry check returns `false`; a symmetric strobe with some channel's
valid-delay set empty returns `false`; with a symmetric strobe, a
non-empty channel list, all per-channel sets non-empty and their
intersection non-empty with maximum `m`, the run programs the delay
registers for `m` on every channel and returns `true`; and in the
scenario with per-channel sets `[1,2,3,4]` and `[2,3,4,5]`, the
intersection is `[2,3,4]` and the applied delay is 4. -/
theorem calibrate_amended :
    (∀ (hw : DioHw) (as : List (ℕ × List ℕ)), hw.symmetric = false →
      calibrate_dio_protocol hw as = some (false, [])) ∧
    (∀ (hw : DioHw) (as : List (ℕ × List ℕ)),
      (∃ p ∈ as, findValidDelaysHw hw p.1 p.2 = []) →
      calibrate_dio_protocol hw as = some (false, [])) ∧
    (∀ (hw : DioHw) (as : List (ℕ × List ℕ)) (combined : List ℕ) (m : ℕ),
      hw.symmetric = true →
      (∀ p ∈ as, findValidDelaysHw hw p.1 p.2 ≠ []) →
      intersectAll (as.map fun p => findValidDelaysHw hw p.1 p.2) = some combined →
      combined.max? = some m →
      calibrate_dio_protocol hw as =
        some (true, as.map fun p => (p.1, appliedRegs hw p.1 m))) ∧
    (findValidDelaysHw hwScenario 0 [1] = [1, 2, 3, 4] ∧
     findValidDelaysHw hwScenario 1 [1] = [2, 3, 4, 5] ∧
     intersectAll [[1, 2, 3, 4], [2, 3, 4, 5]] = some [2, 3, 4] ∧
     ([2, 3, 4] : List ℕ).max? = some 4 ∧
     calibrate_dio_protocol hwScenario [(0, [1]), (1, [1])] =
       some (true, [(0, appliedRegs hwScenario 0 4), (1, appliedRegs hwScenario 1 4)])) := by
  refine ⟨?_, ?_, ?_, rfl, rfl, rfl, rfl, rfl⟩
  · intro hw as hsym
    simp [calibrate_dio_protocol, hsym]
  · intro hw as hempty
    by_cases hsym : hw.symmetric = false
    · simp [calibrate_dio_protocol, hsym]
    · simp [calibrate_dio_protocol, hsym, collectDelays_none hw as hempty]
  · intro hw as combined m hsym hne hint hmax
    simp only [calibrate_dio_protocol, hsym, Bool.true_eq_false, if_false,
      collectDelays_eq_map hw as hne, hint, hmax]

/-- Witness for the amended C1 theorem at a concrete input: the scenario
environment applied through the success branch, choosing delay 4. -/
theorem calibrate_amended_witness :
    calibrate_dio_protocol hwScenario [(0, [1]), (1, [1])] =
      some (true, [(0, [1]), (1, [1])].map fun p => (p.1, appliedRegs hwScenario p.1 4)) :=
  calibrate_amended.2.2.1 hwScenario [(0, [1]), (1, [1])] [2, 3, 4] 4 rfl
    (by decide) (by decide) (by decide)

/-- The violation condition of one analyzer step, as a single flag. -/
def violB (strb_mask strb_slope vld_mask vld_polarity cw_mask cw_shift last_d d : ℕ) : Bool :=
  samplePointB strb_mask strb_slope last_d d &&
    (vldEdgeB vld_mask vld_polarity last_d d || cwEdgeB cw_mask cw_shift last_d d)

/-- The previous sample seen at step `j` of the analyzer's tail: `last` for
the first step, else the preceding list element. -/
def prevAt (last : ℕ) (ds : List ℕ) (j : ℕ) : ℕ :=
  if j = 0 then last else ds.getD (j - 1) 0

theorem prevAt_cons (last d : ℕ) (rest : List ℕ) (j : ℕ) :
    prevAt last (d :: rest) (j + 1) = prevAt d rest j := by
  cases j with
  | zero => simp [prevAt]
  | succ j => simp [prevAt]

theorem analyzeGo_viol_cons (sm ss vm vp cm cs n last_d d : ℕ) (rest : List ℕ) :
    (analyzeGo sm ss vm vp cm cs n last_d (d :: rest)).2 =
      if violB sm ss vm vp cm cs last_d d then
        n :: (analyzeGo sm ss vm vp cm cs (n + 1) d rest).2
      else (analyzeGo sm ss vm vp cm cs (n + 1) d rest).2 := by
  have hsplit : ∀ (a b c : Bool) (x : ℕ) (t : List ℕ),
      (if (a && b) = true then x :: t else if (a && c) = true then x :: t else t) =
        if (a && (b || c)) = true then x :: t else t := by
    intro a b c x t
    cases a <;> cases b <;> cases c <;> simp
  simp only [analyzeGo, violB]
  exact hsplit _ _ _ n _

theorem analyzeGo_viol_mem (sm ss vm vp cm cs : ℕ) :
    ∀ (ds : List ℕ) (n last m : ℕ),
      m ∈ (analyzeGo sm ss vm vp cm cs n last ds).2 ↔
        ∃ j, j < ds.length ∧ m = n + j ∧
          violB sm ss vm vp cm cs (prevAt last ds j) (ds.getD j 0) = true := by
  intro ds
  induction ds with
  | nil => intro n last m; simp [analyzeGo]
  | cons d rest ih =>
    intro n last m
    rw [analyzeGo_viol_cons]
    constructor
    · intro hm
      by_cases hv : violB sm ss vm vp cm cs last d = true
      · rw [if_pos hv] at hm
        rcases List.mem_cons.mp hm with rfl | hm2
        · exact ⟨0, by simp, by omega, by simpa [prevAt] using hv⟩
        · obtain ⟨j, hj, hmj, hvj⟩ := (ih (n + 1) d m).mp hm2
          refine ⟨j + 1, by simpa using Nat.succ_lt_succ hj, by omega, ?_⟩
          rw [prevAt_cons]
          simpa using hvj
      · rw [if_neg hv] at hm
        obtain ⟨j, hj, hmj, hvj⟩ := (ih (n + 1) d m).mp hm
        refine ⟨j + 1, by simpa using Nat.succ_lt_succ hj, by omega, ?_⟩
        rw [prevAt_cons]
        simpa using hvj
    · rintro ⟨j, hj, rfl, hvj⟩
      cases j with
      | zero =>
        have hv : violB sm ss vm vp cm cs last d = true := by
          simpa [prevAt] using hvj
        rw [if_pos hv]
        simp
      | succ j =>
        have hmem : n + 1 + j ∈ (analyzeGo sm ss vm vp cm cs (n + 1) d rest).2 := by
          refine (ih (n + 1) d _).mpr ⟨j, by simpa using hj, rfl, ?_⟩
          rw [prevAt_cons] at hvj
          simpa using hvj
        have harith : n + (j + 1) = n + 1 + j := by omega
        rw [harith]
        by_cases hv : violB sm ss vm vp cm cs last d = true
        · rw [if_pos hv]; exact List.mem_cons_of_mem _ hmem
        · rw [if_neg hv]; exact hmem

theorem analyzeGo_viol_lb (sm ss vm vp cm cs : ℕ) (ds : List ℕ) (n last m : ℕ)
    (hm : m ∈ (analyzeGo sm ss vm vp cm cs n last ds).2) :
    n ≤ m ∧ m < n + ds.length := by
  obtain ⟨j, hj, rfl, _⟩ := (analyzeGo_viol_mem sm ss vm vp cm cs ds n last _).mp hm
  omega

theorem analyzeGo_viol_pairwise (sm ss vm vp cm cs : ℕ) :
    ∀ (ds : List ℕ) (n last : ℕ),
      List.Pairwise (fun a b => a < b) (analyzeGo sm ss vm vp cm cs n last ds).2 := by
  intro ds
  induction ds with
  | nil => intro n last; simp [analyzeGo]
  | cons d rest ih =>
    intro n last
    rw [analyzeGo_viol_cons]
    by_cases hv : violB sm ss vm vp cm cs last d = true
    · rw [if_pos hv]
      refine List.Pairwise.cons ?_ (ih (n + 1) d)
      intro m hm
      have := (analyzeGo_viol_lb sm ss vm vp cm cs rest (n + 1) d m hm).1
      omega
    · rw [if_neg hv]; exact ih (n + 1) d

theorem cwEdgeB_eq_cwChangeB (cm cs last_d d : ℕ) :
    cwEdgeB cm cs last_d d = cwChangeB cm cs last_d d := by
  by_cases hcm : cm = 0
  · subst hcm
    simp [cwEdgeB, cwChangeB, _get_edges, Nat.zero_shiftLeft, Nat.and_zero]
  · simp [cwEdgeB, cwChangeB, hcm]

theorem vldEdgeB_eq (vm vp last_d d : ℕ) :
    vldEdgeB vm vp last_d d = (decide (vp ≠ 0) && vldChangeB vm last_d d) := by
  by_cases hvp : vp = 0
  · subst hvp; simp [vldEdgeB]
  · simp [vldEdgeB, vldChangeB, hvp]

theorem violB_iff (sm ss vm vp cm cs last_d d : ℕ) :
    violB sm ss vm vp cm cs last_d d = true ↔
      (samplePointB sm ss last_d d = true ∧
       ((vp ≠ 0 ∧ vldChangeB vm last_d d = true) ∨ cwChangeB cm cs last_d d = true)) := by
  rw [violB, vldEdgeB_eq, cwEdgeB_eq_cwChangeB]
  by_cases hvp : vp = 0 <;>
    cases hsp : samplePointB sm ss last_d d <;>
      cases hvc : vldChangeB vm last_d d <;>
        cases hcc : cwChangeB cm cs last_d d <;> simp [hvp]

/-- C3 amended: a timing violation is recorded at a position exactly when
that position (one of 1..len-1) is a sample point per the strobe edge
policy and either the valid bit(s) changed — with valid-bit change
detection active only when the valid polarity is not none (0) — or the
shifted codeword-mask bits changed (a zero codeword mask has no bits that
can change, so its guard is immaterial). -/
theorem analyze_violation_iff_amended :
    ∀ (sm ss vm vp cm cs : ℕ) (data : List ℕ) (n : ℕ),
      n ∈ (_analyze_dio_data data sm ss vm vp cm cs).2 ↔
        (1 ≤ n ∧ n < data.length ∧
         samplePointB sm ss (data.getD (n - 1) 0) (data.getD n 0) = true ∧
         ((vp ≠ 0 ∧ vldChangeB vm (data.getD (n - 1) 0) (data.getD n 0) = true) ∨
          cwChangeB cm cs (data.getD (n - 1) 0) (data.getD n 0) = true)) := by
  intro sm ss vm vp cm cs data n
  cases data with
  | nil => simp [_analyze_dio_data]
  | cons d rest =>
    rw [_analyze_dio_data]
    rw [analyzeGo_viol_mem]
    constructor
    · rintro ⟨j, hj, rfl, hv⟩
      have hprev : (d :: rest).getD (1 + j - 1) 0 = prevAt d rest j := by
        cases j with
        | zero => simp [prevAt]
        | succ j => simp [prevAt, Nat.add_comm]
      have hcur : (d :: rest).getD (1 + j) 0 = rest.getD j 0 := by
        rw [Nat.add_comm]
        simp
      rw [violB_iff] at hv
      refine ⟨by omega, by simp only [List.length_cons]; omega, ?_⟩
      rw [hprev, hcur]
      exact hv
    · rintro ⟨h1, h2, hsp, hor⟩
      obtain ⟨j, rfl⟩ : ∃ j, n = 1 + j := ⟨n - 1, by omega⟩
      have hprev : (d :: rest).getD (1 + j - 1) 0 = prevAt d rest j := by
        cases j with
        | zero => simp [prevAt]
        | succ j => simp [prevAt, Nat.add_comm]
      have hcur : (d :: rest).getD (1 + j) 0 = rest.getD j 0 := by
        rw [Nat.add_comm]
        simp
      refine ⟨j, by simp only [List.length_cons] at h2; omega, rfl, ?_⟩
      rw [violB_iff, ← hprev, ← hcur]
      exact ⟨hsp, hor⟩

/-- C9: the violation-positions list of the analyzer is strictly
increasing, hence contains each position at most once (a position where a
sampled valid-bit change and a sampled codeword-bit change coincide still
appears once), and every recorded position lies strictly between 0 and
the trace length — position 0 is never reported. -/
theorem analyze_violations_invariants :
    ∀ (sm ss vm vp cm cs : ℕ) (data : List ℕ) (p : ℕ),
      List.Pairwise (fun a b => a < b) (_analyze_dio_data data sm ss vm vp cm cs).2 ∧
      ((_analyze_dio_data data sm ss vm vp cm cs).2).Nodup ∧
      (p ∈ (_analyze_dio_data data sm ss vm vp cm cs).2 → 1 ≤ p ∧ p < data.length) := by
  intro sm ss vm vp cm cs data p
  have hpw : List.Pairwise (fun a b => a < b) (_analyze_dio_data data sm ss vm vp cm cs).2 := by
    cases data with
    | nil => simp [_analyze_dio_data]
    | cons d rest => exact analyzeGo_viol_pairwise sm ss vm vp cm cs rest 1 d
  refine ⟨hpw, hpw.imp (fun h => Nat.ne_of_lt h), ?_⟩
  intro hp
  cases data with
  | nil => simp [_analyze_dio_data] at hp
  | cons d rest =>
    rw [_analyze_dio_data] at hp
    have := analyzeGo_viol_lb sm ss vm vp cm cs rest 1 d p hp
    simp only [List.length_cons]
    omega

/-- Witness for the C9 theorem at a concrete input: on trace `[0, 1]` with
slope 0 and codeword mask 1, the violation at position 1 satisfies the
bounds. -/
theorem analyze_violations_invariants_witness :
    1 ≤ 1 ∧ 1 < ([0, 1] : List ℕ).length :=
  (analyze_violations_invariants 1 0 0 0 1 0 [0, 1] 1).2.2 (by decide)

theorem codeword_roundtrip_bits (cm cs c other : ℕ)
    (hc : c &&& cm = c) (ho : other &&& (cm <<< cs) = 0) :
    (((c <<< cs) ||| other) >>> cs) &&& cm = c := by
  apply Nat.eq_of_testBit_eq
  intro i
  have h1 : (c.testBit i && cm.testBit i) = c.testBit i := by
    have := congrArg (fun x => x.testBit i) hc
    simpa only [Nat.testBit_and] using this
  have h2 : (other.testBit (cs + i) && cm.testBit i) = false := by
    have := congrArg (fun x => x.testBit (cs + i)) ho
    simp only [Nat.testBit_and, Nat.testBit_shiftLeft, Nat.zero_testBit] at this
    have hle : decide (cs ≤ cs + i) = true := by simp
    have harith : cs + i - cs = i := by omega
    rw [hle, harith] at this
    simpa only [Bool.true_and] using this
  have h3 : ((c <<< cs) ||| other).testBit (cs + i) = (c.testBit i || other.testBit (cs + i)) := by
    simp only [Nat.testBit_or, Nat.testBit_shiftLeft]
    have hle : decide (cs ≤ cs + i) = true := by simp
    have harith : cs + i - cs = i := by omega
    rw [hle, harith]
    simp
  rw [Nat.testBit_and, Nat.testBit_shiftRight, h3]
  cases hcb : c.testBit i <;> cases hob : other.testBit (cs + i) <;>
    cases hmb : cm.testBit i <;> simp_all

/-- C8: round-trip — a trace sample built as `(c <<< shift) ||| other`,
with `c` inside the codeword mask and `other` disjoint from the shifted
mask, that is a sample point with valid-active holding and no timing
violation, makes the analyzer append exactly `c`: on the two-sample trace
ending in that sample, the decoded codeword list is `[c]` and the
violation list is empty. -/
theorem analyze_roundtrip :
    ∀ (sm ss vm vp cm cs c other prev : ℕ),
      c &&& cm = c →
      other &&& (cm <<< cs) = 0 →
      samplePointB sm ss prev ((c <<< cs) ||| other) = true →
      vldActiveB vm vp ((c <<< cs) ||| other) = true →
      violB sm ss vm vp cm cs prev ((c <<< cs) ||| other) = false →
      _analyze_dio_data [prev, (c <<< cs) ||| other] sm ss vm vp cm cs = ([c], []) := by
  intro sm ss vm vp cm cs c other prev hc ho hsp hva hviol
  have hcw : (((c <<< cs) ||| other) >>> cs) &&& cm = c :=
    codeword_roundtrip_bits cm cs c other hc ho
  have hedge : vldEdgeB vm vp prev ((c <<< cs) ||| other) = false ∧
      cwEdgeB cm cs prev ((c <<< cs) ||| other) = false := by
    rw [violB, hsp] at hviol
    simpa using hviol
  simp only [_analyze_dio_data, analyzeGo, hsp, hva, hedge.1, hedge.2, hcw]
  simp

/-- Witness for the C8 theorem at a concrete input: codeword 2 under mask 3
shifted by 2, packed with valid bit 1 high and strobe bit 0 rising. -/
theorem analyze_roundtrip_witness :
    _analyze_dio_data [10, (2 <<< 2) ||| 3] 1 1 2 2 3 2 = ([2], []) :=
  analyze_roundtrip 1 1 2 2 3 2 2 3 10 (by decide) (by decide) (by decide)
    (by decide) (by decide)

theorem strbGo_eq_strbGoB (mask : ℕ) :
    ∀ (data : List ℕ) (cH cL : Bool) (sH sL : ℕ) (ls : Option Bool),
      strbGo mask data cH cL sH sL ls =
        strbGoB (data.map fun d => decide (d &&& mask ≠ 0)) cH cL sH sL ls := by
  intro data
  induction data with
  | nil => intro cH cL sH sL ls; rfl
  | cons d rest ih =>
    intro cH cL sH sL ls
    simp only [List.map_cons, strbGo, strbGoB, ih]

theorem strbGoB_first (b : Bool) (rest : List Bool) :
    strbGoB (b :: rest) false false 0 0 none = strbGoB rest false false 0 0 (some b) := by
  simp [strbGoB]

theorem strbGoB_idle_const :
    ∀ (t : ℕ) (b : Bool) (rest : List Bool) (sH sL : ℕ),
      strbGoB (List.replicate t b ++ rest) false false sH sL (some b) =
        strbGoB rest false false sH sL (some b) := by
  intro t
  induction t with
  | zero => intro b rest sH sL; rfl
  | succ t ih =>
    intro b rest sH sL
    simp only [List.replicate_succ, List.cons_append, strbGoB]
    cases b <;> simp [ih]

theorem strbGoB_idle_edge (b : Bool) (rest : List Bool) (sH sL : ℕ) :
    strbGoB ((!b) :: rest) false false sH sL (some b) =
      if !b then strbGoB rest true false 0 sL (some (!b))
      else strbGoB rest false true sH 0 (some (!b)) := by
  cases b <;> simp [strbGoB]

theorem strbGoB_high_run :
    ∀ (t : ℕ) (rest : List Bool) (sH sL : ℕ),
      strbGoB (List.replicate t true ++ rest) true false sH sL (some true) =
        strbGoB rest true false (sH + t) sL (some true) := by
  intro t
  induction t with
  | zero => intro rest sH sL; rfl
  | succ t ih =>
    intro rest sH sL
    simp only [List.replicate_succ, List.cons_append, strbGoB]
    simp only [Bool.not_true, Bool.and_false, Bool.false_and, Bool.and_true,
      Bool.true_and, if_false, Bool.false_eq_true, if_true]
    rw [List.append_eq, ih]
    have harith : sH + 1 + t = sH + (t + 1) := by omega
    simp [harith]

theorem strbGoB_low_run :
    ∀ (t : ℕ) (rest : List Bool) (sH sL : ℕ),
      strbGoB (List.replicate t false ++ rest) false true sH sL (some false) =
        strbGoB rest false true sH (sL + t) (some false) := by
  intro t
  induction t with
  | zero => intro rest sH sL; rfl
  | succ t ih =>
    intro rest sH sL
    simp only [List.replicate_succ, List.cons_append, strbGoB]
    simp only [Bool.not_false, Bool.and_false, Bool.false_and, Bool.and_true,
      Bool.true_and, if_false, Bool.false_eq_true, if_true]
    rw [List.append_eq, ih]
    have harith : sL + 1 + t = sL + (t + 1) := by omega
    simp [harith]

theorem strbGoB_close_high (rest : List Bool) (sH sL : ℕ) :
    strbGoB (false :: rest) true false sH sL (some true) =
      if 0 < sL ∧ sL ≠ sH then false
      else strbGoB rest false true sH 0 (some false) := by
  have hstep : strbGoB (false :: rest) true false sH sL (some true) =
      if (true && !false && decide (0 < sL) && decide (sL ≠ sH)) = true then false
      else strbGoB rest false true sH 0 (some false) := by
    simp only [strbGoB]
    by_cases hb : (true && !false && decide (0 < sL) && decide (sL ≠ sH)) = true
    · rw [if_pos hb, if_pos hb]
    · rw [if_neg hb, if_neg hb]
      simp
  rw [hstep]
  by_cases h : 0 < sL ∧ sL ≠ sH
  · rw [if_pos h, if_pos (by simp [h.1, h.2])]
  · rw [if_neg h, if_neg ?_]
    rcases Decidable.not_and_iff_or_not.mp h with h1 | h1 <;> simp [h1]

theorem strbGoB_close_low (rest : List Bool) (sH sL : ℕ) :
    strbGoB (true :: rest) false true sH sL (some false) =
      if 0 < sH ∧ sL ≠ sH then false
      else strbGoB rest true false 0 sL (some true) := by
  simp only [strbGoB, Bool.false_and, Bool.and_false, Bool.true_and, Bool.and_true,
    Bool.not_true, Bool.not_false, Bool.false_eq_true, if_false]
  by_cases h : 0 < sH ∧ sL ≠ sH
  · rw [if_pos h, if_pos (by simp [h.1, h.2])]
  · rw [if_neg h,
      if_neg (by rcases Decidable.not_and_iff_or_not.mp h with h1 | h1 <;> simp [h1]),
      if_pos trivial]

theorem strbGoB_runs :
    ∀ (rs : List ℕ) (p : Bool) (c q : ℕ),
      (∀ t ∈ rs, 0 < t) → chainOKB c q rs = true →
      strbGoB (altBlocks p rs) (!p) p (if p then q else c) (if p then c else q)
        (some (!p)) = true := by
  intro rs
  induction rs with
  | nil => intro p c q _ _; cases p <;> rfl
  | cons t rs ih =>
    intro p c q hpos hch
    obtain ⟨t', rfl⟩ : ∃ t', t = t' + 1 :=
      ⟨t - 1, by have := hpos t (List.mem_cons_self t rs); omega⟩
    have hq : q = 0 ∨ q = c := by
      simp only [chainOKB, Bool.and_eq_true, Bool.or_eq_true, decide_eq_true_eq] at hch
      exact hch.1
    have hch2 : chainOKB t' c rs = true := by
      simp only [chainOKB, Bool.and_eq_true] at hch
      simpa using hch.2
    have hpos2 : ∀ u ∈ rs, 0 < u := fun u hu => hpos u (List.mem_cons_of_mem _ hu)
    cases p
    · simp only [altBlocks, List.replicate_succ, List.cons_append, Bool.not_false,
        Bool.false_eq_true, if_false]
      rw [strbGoB_close_high, if_neg (by rcases hq with h | h <;> omega),
        strbGoB_low_run]
      have := ih true t' c hpos2 hch2
      simpa using this
    · simp only [altBlocks, List.replicate_succ, List.cons_append, Bool.not_true,
        Bool.true_eq_false, if_true, if_false]
      rw [strbGoB_close_low, if_neg (by rcases hq with h | h <;> omega),
        strbGoB_high_run]
      have := ih false t' c hpos2 hch2
      simpa using this

theorem chain_dropLast_chainOKB :
    ∀ (ts : List ℕ) (u q : ℕ),
      List.Chain' (fun a b => a = b) ((u :: ts).dropLast) →
      (q = 0 ∨ q = u - 1) →
      chainOKB (u - 1) q ts = true := by
  intro ts
  induction ts with
  | nil => intro u q _ _; rfl
  | cons v ts ih =>
    intro u q hchain hq
    simp only [chainOKB, Bool.and_eq_true, Bool.or_eq_true, decide_eq_true_eq]
    refine ⟨hq, ?_⟩
    cases ts with
    | nil => rfl
    | cons w ts2 =>
      have hchain2 : List.Chain' (fun a b => a = b) (u :: v :: (w :: ts2).dropLast) :=
        hchain
      have huv : u = v := (List.chain'_cons.mp hchain2).1
      have hnext : List.Chain' (fun a b => a = b) ((v :: w :: ts2).dropLast) :=
        (List.chain'_cons.mp hchain2).2
      exact ih v (u - 1) hnext (Or.inr (by rw [huv]))

theorem strbGoB_full :
    ∀ (b : Bool) (ts : List ℕ) (bs : List Bool),
      bs = altBlocks b ts →
      (∀ t ∈ ts, 0 < t) →
      List.Chain' (fun a b => a = b) ts.dropLast →
      strbGoB bs false false 0 0 none = true := by
  intro b ts bs hbs hpos hchain
  subst hbs
  cases ts with
  | nil => rfl
  | cons t0 ts1 =>
    obtain ⟨t0p, rfl⟩ : ∃ u, t0 = u + 1 :=
      ⟨t0 - 1, by have := hpos t0 (List.mem_cons_self _ _); omega⟩
    simp only [altBlocks, List.replicate_succ, List.cons_append]
    rw [strbGoB_first, strbGoB_idle_const]
    cases ts1 with
    | nil => rfl
    | cons t1 ts2 =>
      obtain ⟨t1p, rfl⟩ : ∃ u, t1 = u + 1 :=
        ⟨t1 - 1, by have := hpos t1 (List.mem_cons_of_mem _ (List.mem_cons_self _ _)); omega⟩
      have hpos2 : ∀ u ∈ ts2, 0 < u := fun u hu =>
        hpos u (List.mem_cons_of_mem _ (List.mem_cons_of_mem _ hu))
      have hchain2 : List.Chain' (fun a b => a = b) (((t1p + 1) :: ts2).dropLast) :=
        List.Chain'.tail hchain
      have hok : chainOKB t1p 0 ts2 = true := by
        have := chain_dropLast_chainOKB ts2 (t1p + 1) 0 hchain2 (Or.inl rfl)
        simpa using this
      simp only [altBlocks, List.replicate_succ, List.cons_append]
      rw [strbGoB_idle_edge]
      cases b
      · simp only [Bool.not_false, if_true]
        rw [strbGoB_high_run]
        have := strbGoB_runs ts2 false t1p 0 hpos2 hok
        simpa using this
      · simp only [Bool.not_true, Bool.false_eq_true, if_false]
        rw [strbGoB_low_run]
        have := strbGoB_runs ts2 true t1p 0 hpos2 hok
        simpa using this

theorem strbGoB_replicate (n : ℕ) (b : Bool) :
    strbGoB (List.replicate n b) false false 0 0 none = true := by
  cases n with
  | zero => rfl
  | succ n =>
    rw [List.replicate_succ, strbGoB_first]
    have := strbGoB_idle_const n b [] 0 0
    simpa using this

/-- C10: the symmetry checker accepts every trace in which, on each listed
strobe bit, the run decomposition of the bit's boolean trace has all its
closed runs (every run but the last) of one common length — no strobe bit
ever closes a high run and a low run of differing lengths; in particular,
for every strobe-bit set it accepts the empty trace, any single-sample
trace, any constant trace, and — per the general clause — any trace whose
listed strobe bits never toggle: a dead strobe line is classified as
symmetric. -/
theorem is_symmetric_accepts :
    ∀ (bits : List ℕ) (data : List ℕ),
      (_is_dio_strb_symmetric [] bits = true) ∧
      (∀ d, _is_dio_strb_symmetric [d] bits = true) ∧
      (∀ d n, _is_dio_strb_symmetric (List.replicate n d) bits = true) ∧
      ((∀ bit ∈ bits, ∃ b ts,
          data.map (fun d => decide (d &&& (1 <<< bit) ≠ 0)) = altBlocks b ts ∧
          (∀ t ∈ ts, 0 < t) ∧
          List.Chain' (fun a b => a = b) ts.dropLast) →
        _is_dio_strb_symmetric data bits = true) := by
  intro bits data
  refine ⟨?_, ?_, ?_, ?_⟩
  · simp [_is_dio_strb_symmetric, strbGo]
  · intro d
    simp only [_is_dio_strb_symmetric, List.all_eq_true]
    intro bit _
    rw [strbGo_eq_strbGoB]
    have := strbGoB_replicate 1 (decide (d &&& (1 <<< bit) ≠ 0))
    simpa using this
  · intro d n
    simp only [_is_dio_strb_symmetric, List.all_eq_true]
    intro bit _
    rw [strbGo_eq_strbGoB, List.map_replicate]
    exact strbGoB_replicate n _
  · intro h
    simp only [_is_dio_strb_symmetric, List.all_eq_true]
    intro bit hbit
    obtain ⟨b, ts, hdecomp, hpos, hchain⟩ := h bit hbit
    rw [strbGo_eq_strbGoB]
    exact strbGoB_full b ts _ hdecomp hpos hchain

/-- Witness for the C10 theorem at a concrete input: the trace
`[1, 1, 0, 0, 1, 1]` on strobe bit 0 decomposes into runs of lengths
`[2, 2, 2]`, whose closed runs all have length 2, and is accepted. -/
theorem is_symmetric_accepts_witness :
    _is_dio_strb_symmetric [1, 1, 0, 0, 1, 1] [0] = true :=
  (is_symmetric_accepts [0] [1, 1, 0, 0, 1, 1]).2.2.2 (by
    intro bit hbit
    have hb : bit = 0 := by simpa using hbit
    subst hb
    exact ⟨true, [2, 2, 2], by decide, by decide, by
      show List.Chain' (fun a b => a = b) [2, 2]
      exact List.chain'_pair.mpr rfl⟩)
